import Mathlib

/-!
Shallow embedding of the `hq-go-roundrobin` Go library (file `roundrobin.go`)
and verification of its natural-language specification.

Modelling conventions:
* Go `uint32` fields (`nextItemIndex`, `currentItemServesCount`) are `Nat`
  values kept below `2 ^ 32`; every update that Go performs with wrapping
  `uint32` arithmetic is written with an explicit `% 2 ^ 32`.
* Go `int32` fields (`ServesCount`, `RotateAmount`) are `Int` values; the
  wrapping `atomic.AddInt32` is modelled by `wrap32`, and the Go conversion
  `uint32(x)` of an `int32` is modelled by `uint32OfInt`.
* Go code that would panic (indexing out of bounds, `%` by zero on an empty
  registry) is modelled by `Option`: `none` is a panic.
* `sync.Map` only ever stores keys paired with `struct{}{}`, so it is
  modelled by its list of keys, `itemsMapKeys`.
* The mutex and atomics serialise every call in the Go source; the embedding
  is the sequential behaviour of one call at a time.
-/

namespace RoundRobinModel

/-- Serve-count statistics of an item (`Statistics` in the source).  The Go
source stores the count in an `int32` updated with wrapping two's-complement
arithmetic; it is modelled as an `Int` kept in `[-2 ^ 31, 2 ^ 31)`. -/
structure Statistics where
  servesCount : Int
  deriving Repr, DecidableEq

/-- Two's-complement wrap of an integer into the `int32` range, the effect of
Go's `atomic.AddInt32`. -/
def wrap32 (z : Int) : Int :=
  (z + 2 ^ 31) % 2 ^ 32 - 2 ^ 31

/-- `Statistics.IncrementServesCount` from the source: wrapping `int32` add. -/
def Statistics.incrementServesCount (s : Statistics) (value : Int) : Statistics :=
  { servesCount := wrap32 (s.servesCount + value) }

/-- `Statistics.ResetServesCount` from the source: store zero. -/
def Statistics.resetServesCount (_ : Statistics) : Statistics :=
  { servesCount := 0 }

/-- `Item` from the source: a string value plus its statistics. -/
structure Item where
  value : String
  statistics : Statistics
  deriving Repr, DecidableEq

/-- `Options` from the source; `RotateAmount` is an `int32`. -/
structure Options where
  RotateAmount : Int
  deriving Repr, DecidableEq

/-- The Go conversion `uint32(x)` applied to an `int32` value: reinterpret
modulo `2 ^ 32` as an unsigned number. -/
def uint32OfInt (z : Int) : Nat :=
  (z % 2 ^ 32).toNat

/-- `RoundRobin` from the source.  `itemsMapKeys` is the key set of the
`sync.Map` used for duplicate detection; `nextItemIndex` and
`currentItemServesCount` are the two `uint32` counters. -/
structure RoundRobin where
  items : List Item
  itemsMapKeys : List String
  nextItemIndex : Nat
  currentItemServesCount : Nat
  options : Options
  deriving Repr, DecidableEq

/-- `RoundRobin.Items` from the source: returns the items slice. -/
def RoundRobin.Items (r : RoundRobin) : List Item :=
  r.items

/-- One iteration of the loop body of `RoundRobin.Add` for a single value:
`LoadOrStore` on the map gates the append to the slice. -/
def RoundRobin.addOne (r : RoundRobin) (value : String) : RoundRobin :=
  if value ∈ r.itemsMapKeys then r
  else
    { r with
      items := r.items ++ [{ value := value, statistics := { servesCount := 0 } }]
      itemsMapKeys := r.itemsMapKeys ++ [value] }

/-- `RoundRobin.Add` from the source: insert each value in order. -/
def RoundRobin.add (r : RoundRobin) (values : List String) : RoundRobin :=
  values.foldl RoundRobin.addOne r

/-- The counter update at the top of `RoundRobin.Next`: either rotate to the
next item (reset the repeat counter to `1`, advance the cursor by one with
wrapping `uint32` arithmetic) or keep serving the current one (wrapping
`uint32` increment of the repeat counter). -/
def RoundRobin.stepUpdate (r : RoundRobin) : RoundRobin :=
  if r.currentItemServesCount ≥ uint32OfInt r.options.RotateAmount then
    { r with
      currentItemServesCount := 1
      nextItemIndex := (r.nextItemIndex + 1) % 2 ^ 32 }
  else
    { r with currentItemServesCount := (r.currentItemServesCount + 1) % 2 ^ 32 }

/-- The index selection of `RoundRobin.Next` after the counter update:
`nextItemIndex := (int(r.nextItemIndex) - 1) % len(r.items)` (Go's `%` on
`int` truncates towards zero, i.e. `Int.tmod`), followed by the defensive
bounds check `nextItemIndex < 0 || nextItemIndex > len(r.items)` that falls
back to index `0`. -/
def RoundRobin.servedIndex (r1 : RoundRobin) : Nat :=
  let nextIdx : Int := ((r1.nextItemIndex : Int) - 1).tmod (r1.items.length : Int)
  if nextIdx < 0 ∨ nextIdx > (r1.items.length : Int) then 0 else nextIdx.toNat

/-- Serving an index: increment the slot's statistics in place and return the
(updated) item, as the tail of `RoundRobin.Next` does.  An out-of-range index
is a Go panic, i.e. `none`. -/
def RoundRobin.serveAt (r : RoundRobin) (i : Nat) : Option (Item × RoundRobin) :=
  match r.items.get? i with
  | none => none
  | some x =>
    let served : Item := { x with statistics := x.statistics.incrementServesCount 1 }
    some (served, { r with items := r.items.set i served })

/-- `RoundRobin.Next` from the source.  `none` models a Go panic: on an empty
registry `(int(r.nextItemIndex) - 1) % len(r.items)` divides by zero. -/
def RoundRobin.next (r : RoundRobin) : Option (Item × RoundRobin) :=
  let r1 := r.stepUpdate
  if r1.items.length = 0 then none
  else r1.serveAt r1.servedIndex

/-- The single error kind of the library (`ErrNoItems`). -/
inductive RRError where
  | errNoItems
  deriving Repr, DecidableEq

instance {e a : Type} [DecidableEq e] [DecidableEq a] : DecidableEq (Except e a) :=
  fun x y =>
  match x, y with
  | Except.error u, Except.error w =>
    if h : u = w then Decidable.isTrue (by rw [h])
    else Decidable.isFalse (fun hc => h (by cases hc; rfl))
  | Except.ok u, Except.ok w =>
    if h : u = w then Decidable.isTrue (by rw [h])
    else Decidable.isFalse (fun hc => h (by cases hc; rfl))
  | Except.error _, Except.ok _ => Decidable.isFalse (fun hc => Except.noConfusion hc)
  | Except.ok _, Except.error _ => Decidable.isFalse (fun hc => Except.noConfusion hc)

/-- `DefaultOptions` from the source. -/
def DefaultOptions : Options :=
  { RotateAmount := 1 }

/-- `NewWithOptions` from the source: reject an empty item list, otherwise
seed an empty registry via `Add` and start the cursor at `1`. -/
def NewWithOptions (options : Options) (items : List String) : Except RRError RoundRobin :=
  if items.length = 0 then
    Except.error RRError.errNoItems
  else
    let rr : RoundRobin :=
      { items := []
        itemsMapKeys := []
        nextItemIndex := 0
        currentItemServesCount := 0
        options := options }
    let rr := rr.add items
    Except.ok { rr with nextItemIndex := 1 }

/-- `New` from the source: `NewWithOptions` with the default options. -/
def New (items : List String) : Except RRError RoundRobin :=
  NewWithOptions DefaultOptions items

/-- State after `t` sequential `Next` calls; `none` once any call panicked. -/
def runNext (r : RoundRobin) : Nat → Option RoundRobin
  | 0 => some r
  | t + 1 => (runNext r t).bind fun s => s.next.map Prod.snd

/-- Value returned by call number `k + 1` of a sequential series of `Next`
calls (calls are counted from `k = 0`). -/
def callValue (r : RoundRobin) (k : Nat) : Option String :=
  (runNext r k).bind fun s => s.next.map fun p => p.fst.value

/-- Number of times the cursor has been advanced during the first `t`
sequential `Next` calls: call `t + 1` advances exactly when the repeat
counter of the state reached after `t` calls is at least the hold amount. -/
def advCount (r : RoundRobin) : Nat → Nat
  | 0 => 0
  | t + 1 =>
    advCount r t +
      match runNext r t with
      | some s => if s.currentItemServesCount ≥ uint32OfInt s.options.RotateAmount then 1 else 0
      | none => 0

/-- Modelled from the spec: deduplication step keeping the first occurrence. -/
def dedupStep (acc : List String) (v : String) : List String :=
  if v ∈ acc then acc else acc ++ [v]

/-- Modelled from the spec: "`Items()` returns exactly those items in given
order (after dedup)" — first-seen-order deduplication of the supplied
values, used as the specification-side description the registry contents are
compared against. -/
def firstSeenDedup (values : List String) : List String :=
  values.foldl dedupStep []

/-- Coherence of the two containers of the registry: the `sync.Map` holds
exactly the values present in the slice. -/
def coherent (r : RoundRobin) : Prop :=
  ∀ x : String, x ∈ r.itemsMapKeys ↔ x ∈ r.items.map Item.value

/-- States produced by a sequence of `New`/`NewWithOptions` and `Add`
operations. -/
inductive ReachableNA : RoundRobin → Prop
  | ofNew (options : Options) (values : List String) (r : RoundRobin)
      (h : NewWithOptions options values = Except.ok r) : ReachableNA r
  | ofAdd (r : RoundRobin) (values : List String) (h : ReachableNA r) :
      ReachableNA (r.add values)

/-- The freshly constructed two-item instance `New ["a", "b"]` produces,
used as a concrete test vehicle. -/
def sampleAB : RoundRobin :=
  { items := [{ value := "a", statistics := { servesCount := 0 } },
      { value := "b", statistics := { servesCount := 0 } }]
    itemsMapKeys := ["a", "b"]
    nextItemIndex := 1
    currentItemServesCount := 0
    options := { RotateAmount := 1 } }

/-- The freshly constructed two-item instance with hold amount `2` that
`NewWithOptions { RotateAmount := 2 } ["a", "b"]` produces. -/
def sampleAB2 : RoundRobin :=
  { items := [{ value := "a", statistics := { servesCount := 0 } },
      { value := "b", statistics := { servesCount := 0 } }]
    itemsMapKeys := ["a", "b"]
    nextItemIndex := 1
    currentItemServesCount := 0
    options := { RotateAmount := 2 } }

/-- The freshly constructed one-item instance `New ["a"]` produces. -/
def sampleA : RoundRobin :=
  { items := [{ value := "a", statistics := { servesCount := 0 } }]
    itemsMapKeys := ["a"]
    nextItemIndex := 1
    currentItemServesCount := 0
    options := { RotateAmount := 1 } }

/-- The freshly constructed one-item instance `New ["x"]` produces. -/
def sampleX : RoundRobin :=
  { items := [{ value := "x", statistics := { servesCount := 0 } }]
    itemsMapKeys := ["x"]
    nextItemIndex := 1
    currentItemServesCount := 0
    options := { RotateAmount := 1 } }

/-- A mid-run two-item state (cursor `7`, some serves recorded). -/
def sampleMid : RoundRobin :=
  { items := [{ value := "a", statistics := { servesCount := 4 } },
      { value := "b", statistics := { servesCount := 3 } }]
    itemsMapKeys := ["a", "b"]
    nextItemIndex := 7
    currentItemServesCount := 1
    options := { RotateAmount := 1 } }

/-! ### Basic facts about the embedded operations -/

@[simp] theorem stepUpdate_items (r : RoundRobin) : r.stepUpdate.items = r.items := by
  unfold RoundRobin.stepUpdate
  split <;> rfl

@[simp] theorem stepUpdate_itemsMapKeys (r : RoundRobin) :
    r.stepUpdate.itemsMapKeys = r.itemsMapKeys := by
  unfold RoundRobin.stepUpdate
  split <;> rfl

@[simp] theorem stepUpdate_options (r : RoundRobin) : r.stepUpdate.options = r.options := by
  unfold RoundRobin.stepUpdate
  split <;> rfl

theorem uint32OfInt_lt (z : Int) : uint32OfInt z < 2 ^ 32 := by
  unfold uint32OfInt
  have h1 : 0 ≤ z % 2 ^ 32 := Int.emod_nonneg z (by norm_num)
  have h2 : z % 2 ^ 32 < 2 ^ 32 := Int.emod_lt_of_pos z (by norm_num)
  omega

theorem wrap32_eq_self (z : Int) (h1 : -2 ^ 31 ≤ z) (h2 : z < 2 ^ 31) : wrap32 z = z := by
  unfold wrap32
  omega

theorem neg_one_tmod_nat (n : Nat) : (-1 : Int).tmod (n : Int) = -(((1 % n : Nat) : Int)) := rfl

/-- The index selection of `Next`, with the Go `int` arithmetic and the
defensive fallback unfolded: the index actually used is `0` when the updated
cursor is `0` (the fallback, or `n = 1`), and `(cursor - 1) % n` otherwise. -/
theorem servedIndex_eq (r1 : RoundRobin) (hn : r1.items.length ≠ 0) :
    r1.servedIndex =
      if r1.nextItemIndex = 0 then 0 else (r1.nextItemIndex - 1) % r1.items.length := by
  unfold RoundRobin.servedIndex
  rcases Nat.eq_zero_or_pos r1.nextItemIndex with hc | hc
  · rw [hc]
    simp only [Nat.cast_zero, zero_sub, if_pos rfl]
    rw [neg_one_tmod_nat]
    rcases Nat.lt_or_ge 1 r1.items.length with hl | hl
    · rw [Nat.mod_eq_of_lt hl]
      norm_num
    · have h1 : r1.items.length = 1 := by omega
      rw [h1]
      norm_num
  · have hlt : (r1.nextItemIndex - 1) % r1.items.length < r1.items.length :=
      Nat.mod_lt _ (by omega)
    have hcast : ((r1.nextItemIndex : Int) - 1) = ((r1.nextItemIndex - 1 : Nat) : Int) := by
      omega
    rw [hcast, Int.tmod_eq_emod (by positivity) (by positivity), if_neg (by omega)]
    have hmod : ((r1.nextItemIndex - 1 : Nat) : Int) % ((r1.items.length : Nat) : Int)
        = (((r1.nextItemIndex - 1) % r1.items.length : Nat) : Int) := by
      push_cast
      ring
    rw [hmod, if_neg (by omega)]
    omega

theorem servedIndex_lt (r1 : RoundRobin) (hn : r1.items.length ≠ 0) :
    r1.servedIndex < r1.items.length := by
  rw [servedIndex_eq r1 hn]
  rcases Nat.eq_zero_or_pos r1.nextItemIndex with hc | hc
  · rw [if_pos hc]
    omega
  · rw [if_neg (by omega)]
    exact Nat.mod_lt _ (by omega)

/-- One `Next` call on a non-empty registry, fully characterised: it succeeds
and returns the item at `servedIndex` of the updated counters, with its
statistics incremented in place. -/
theorem next_eq (r : RoundRobin) (hne : r.items.length ≠ 0) :
    ∃ x : Item,
      r.items.get? r.stepUpdate.servedIndex = some x ∧
      r.next = some
        ({ x with statistics := x.statistics.incrementServesCount 1 },
         { r.stepUpdate with
            items := r.items.set r.stepUpdate.servedIndex
              { x with statistics := x.statistics.incrementServesCount 1 } }) := by
  have hidx : r.stepUpdate.servedIndex < r.items.length := by
    have := servedIndex_lt r.stepUpdate (by rw [stepUpdate_items]; exact hne)
    rwa [stepUpdate_items] at this
  obtain ⟨x, hx⟩ : ∃ x, r.items.get? r.stepUpdate.servedIndex = some x :=
    ⟨_, List.get?_eq_get hidx⟩
  refine ⟨x, hx, ?_⟩
  unfold RoundRobin.next RoundRobin.serveAt
  simp only [stepUpdate_items, if_neg hne, hx]

/-! ### Arithmetic of the repeat counter and the cursor -/

theorem mod_succ_eq (a h : Nat) (hh : 1 ≤ h) :
    (a + 1) % h = if a % h + 1 = h then 0 else a % h + 1 := by
  rcases Nat.lt_or_ge 1 h with h2 | h2
  · have h1h : 1 % h = 1 := Nat.mod_eq_of_lt h2
    have hlt : a % h < h := Nat.mod_lt a (by omega)
    conv_lhs => rw [Nat.add_mod, h1h]
    by_cases hc : a % h + 1 = h
    · rw [if_pos hc, hc, Nat.mod_self]
    · rw [if_neg hc, Nat.mod_eq_of_lt (by omega)]
  · have h1 : h = 1 := by omega
    subst h1
    simp [Nat.mod_one]

/-- Call `t` (with `t ≥ 1`) triggers a rotation exactly when `h` divides `t`:
the repeat counter seen by that call is `(t - 1) % h + 1`. -/
theorem rotate_condition (t h : Nat) (hh : 1 ≤ h) (ht : 1 ≤ t) :
    ((t - 1) % h + 1 ≥ h) ↔ t % h = 0 := by
  obtain ⟨a, rfl⟩ : ∃ a, t = a + 1 := ⟨t - 1, by omega⟩
  simp only [Nat.add_sub_cancel]
  rw [mod_succ_eq a h hh]
  have hlt : a % h < h := Nat.mod_lt a (by omega)
  by_cases hc : a % h + 1 = h
  · simp only [if_pos hc]
    constructor
    · intro _
      trivial
    · intro _
      exact hc.symm.le
  · simp only [if_neg hc]
    constructor
    · intro hge
      exact absurd (Nat.le_antisymm (Nat.succ_le_of_lt hlt) hge) hc
    · intro h0
      exact absurd h0 (Nat.succ_ne_zero _)

theorem div_succ_split (t h : Nat) (_hh : 1 ≤ h) (ht : 1 ≤ t) :
    t / h = (t - 1) / h + (if t % h = 0 then 1 else 0) := by
  obtain ⟨a, rfl⟩ : ∃ a, t = a + 1 := ⟨t - 1, by omega⟩
  simp only [Nat.add_sub_cancel]
  rw [Nat.succ_div]
  congr 1
  by_cases hd : h ∣ a + 1
  · rw [if_pos hd, if_pos (Nat.dvd_iff_mod_eq_zero.mp hd)]
  · rw [if_neg hd, if_neg (fun hm => hd (Nat.dvd_iff_mod_eq_zero.mpr hm))]

theorem mod_succ_of_not_rotate (t h : Nat) (hh : 1 ≤ h) (ht : 1 ≤ t)
    (hnr : ¬ t % h = 0) : t % h = (t - 1) % h + 1 := by
  obtain ⟨a, rfl⟩ : ∃ a, t = a + 1 := ⟨t - 1, by omega⟩
  simp only [Nat.add_sub_cancel]
  rw [mod_succ_eq a h hh] at hnr ⊢
  by_cases hc : a % h + 1 = h
  · rw [if_pos hc] at hnr
    exact absurd rfl hnr
  · rw [if_neg hc]

/-- Setting a slot of a list to an item with the same value leaves the list of
values unchanged. -/
theorem map_value_set (l : List Item) (i : Nat) (x y : Item)
    (hx : l.get? i = some x) (hv : y.value = x.value) :
    (l.set i y).map Item.value = l.map Item.value := by
  induction l generalizing i with
  | nil => simp at hx
  | cons hd tl ih =>
    cases i with
    | zero =>
      simp only [List.get?] at hx
      cases hx
      simp [List.set, hv]
    | succ n =>
      simp only [List.get?] at hx
      simp [List.set, ih n hx]

/-- Closed form for a fresh rotator run.  Starting from the state produced by
construction (cursor `1`, repeat counter `0`, non-empty registry, hold amount
`h ≥ 1` as reinterpreted by `uint32`), after `t` sequential `Next` calls:
no call has panicked, the registry values, the map keys and the options are
unchanged, the cursor is `(1 + (t - 1) / h) % 2 ^ 32` and the repeat counter
is `(t - 1) % h + 1` (or `0` when `t = 0`).  Subtraction is truncated `Nat`
subtraction, so `(t - 1) / h = 0` also at `t = 0`. -/
theorem run_closed_form (r : RoundRobin) (h : Nat)
    (hhdef : uint32OfInt r.options.RotateAmount = h) (hh : 1 ≤ h)
    (hc : r.nextItemIndex = 1) (hr : r.currentItemServesCount = 0)
    (hne : r.items.length ≠ 0) :
    ∀ t : Nat, ∃ s : RoundRobin,
      runNext r t = some s ∧
      s.options = r.options ∧
      s.itemsMapKeys = r.itemsMapKeys ∧
      s.items.map Item.value = r.items.map Item.value ∧
      s.items.length = r.items.length ∧
      s.nextItemIndex = (1 + (t - 1) / h) % 2 ^ 32 ∧
      s.currentItemServesCount = (if t = 0 then 0 else (t - 1) % h + 1) := by
  have hlt32 : h < 2 ^ 32 := hhdef ▸ uint32OfInt_lt r.options.RotateAmount
  intro t
  induction t with
  | zero =>
    refine ⟨r, rfl, rfl, rfl, rfl, rfl, ?_, by simp [hr]⟩
    rw [hc]
    simp [Nat.mod_eq_of_lt (show (1 : Nat) < 2 ^ 32 by norm_num)]
  | succ t ih =>
    obtain ⟨s, hrun, hopt, hkeys, hmap, hlen, hcur, hrep⟩ := ih
    have hsne : s.items.length ≠ 0 := by rw [hlen]; exact hne
    obtain ⟨x, hx, hnext⟩ := next_eq s hsne
    have hth : uint32OfInt s.options.RotateAmount = h := by rw [hopt]; exact hhdef
    have hrunsucc :
        runNext r (t + 1) = s.next.map Prod.snd := by
      simp [runNext, hrun]
    refine ⟨_, by rw [hrunsucc, hnext]; rfl, ?_, ?_, ?_, ?_, ?_, ?_⟩
    · simpa using hopt
    · simpa using hkeys
    · rw [show (({ s.stepUpdate with
            items := s.items.set s.stepUpdate.servedIndex
              { x with statistics := x.statistics.incrementServesCount 1 } } :
          RoundRobin).items)
        = s.items.set s.stepUpdate.servedIndex
            { x with statistics := x.statistics.incrementServesCount 1 } from rfl]
      rw [map_value_set s.items s.stepUpdate.servedIndex x
        { x with statistics := x.statistics.incrementServesCount 1 } hx rfl]
      exact hmap
    · rw [show (({ s.stepUpdate with
            items := s.items.set s.stepUpdate.servedIndex
              { x with statistics := x.statistics.incrementServesCount 1 } } :
          RoundRobin).items)
        = s.items.set s.stepUpdate.servedIndex
            { x with statistics := x.statistics.incrementServesCount 1 } from rfl]
      rw [List.length_set]
      exact hlen
    · -- the cursor
      show s.stepUpdate.nextItemIndex = (1 + (t + 1 - 1) / h) % 2 ^ 32
      unfold RoundRobin.stepUpdate
      rw [hth]
      by_cases hadv : s.currentItemServesCount ≥ h
      · rw [if_pos hadv]
        rw [hrep] at hadv
        have ht1 : 1 ≤ t := by
          by_contra hlt1
          have ht0 : t = 0 := by omega
          rw [if_pos ht0] at hadv
          omega
        rw [if_neg (by omega)] at hadv
        have hdvd : t % h = 0 := (rotate_condition t h hh ht1).mp hadv
        have hdiv : t / h = (t - 1) / h + 1 := by
          rw [div_succ_split t h hh ht1, if_pos hdvd]
        show (s.nextItemIndex + 1) % 2 ^ 32 = (1 + (t + 1 - 1) / h) % 2 ^ 32
        rw [hcur, Nat.mod_add_mod, Nat.add_sub_cancel, hdiv]
        omega
      · rw [if_neg hadv]
        show s.nextItemIndex = (1 + (t + 1 - 1) / h) % 2 ^ 32
        rw [hcur, Nat.add_sub_cancel]
        rw [hrep] at hadv
        by_cases ht0 : t = 0
        · subst ht0
          norm_num
        · rw [if_neg ht0] at hadv
          have ht1 : 1 ≤ t := by omega
          have hnr : ¬ t % h = 0 := fun hm => hadv ((rotate_condition t h hh ht1).mpr hm)
          rw [div_succ_split t h hh ht1, if_neg hnr]
          omega
    · -- the repeat counter
      show s.stepUpdate.currentItemServesCount = if t + 1 = 0 then 0 else (t + 1 - 1) % h + 1
      rw [if_neg (Nat.succ_ne_zero t), Nat.add_sub_cancel]
      unfold RoundRobin.stepUpdate
      rw [hth]
      by_cases hadv : s.currentItemServesCount ≥ h
      · rw [if_pos hadv]
        rw [hrep] at hadv
        have ht1 : 1 ≤ t := by
          by_contra hlt1
          have ht0 : t = 0 := by omega
          rw [if_pos ht0] at hadv
          omega
        rw [if_neg (by omega)] at hadv
        have hdvd : t % h = 0 := (rotate_condition t h hh ht1).mp hadv
        show 1 = t % h + 1
        rw [hdvd]
      · rw [if_neg hadv]
        show (s.currentItemServesCount + 1) % 2 ^ 32 = t % h + 1
        rw [hrep] at hadv
        rw [hrep]
        by_cases ht0 : t = 0
        · subst ht0
          rw [if_pos rfl, Nat.zero_mod]
          norm_num
        · rw [if_neg ht0] at hadv ⊢
          have ht1 : 1 ≤ t := by omega
          have hnr : ¬ t % h = 0 := fun hm => hadv ((rotate_condition t h hh ht1).mpr hm)
          rw [mod_succ_of_not_rotate t h hh ht1 hnr]
          have hbd : (t - 1) % h + 1 + 1 < 2 ^ 32 := by omega
          exact Nat.mod_eq_of_lt hbd

/-- The value served by call `k + 1` of a fresh run, in terms of the updated
cursor `(1 + k / h) % 2 ^ 32`: index `0` when the cursor has wrapped to `0`,
and `(cursor - 1) % n` otherwise. -/
theorem callValue_eq (r : RoundRobin) (h : Nat)
    (hhdef : uint32OfInt r.options.RotateAmount = h) (hh : 1 ≤ h)
    (hc : r.nextItemIndex = 1) (hr : r.currentItemServesCount = 0)
    (hne : r.items.length ≠ 0) (k : Nat) :
    callValue r k =
      some ((r.items.map Item.value).getD
        (if (1 + k / h) % 2 ^ 32 = 0 then 0
         else ((1 + k / h) % 2 ^ 32 - 1) % r.items.length) "") := by
  obtain ⟨s, hrun, hopt, hkeys, hmap, hlen, hcur, hrep⟩ :=
    run_closed_form r h hhdef hh hc hr hne k
  have hsne : s.items.length ≠ 0 := by rw [hlen]; exact hne
  obtain ⟨x, hx, hnext⟩ := next_eq s hsne
  obtain ⟨s1, hrun1, _, _, _, _, hcur1, _⟩ := run_closed_form r h hhdef hh hc hr hne (k + 1)
  have hrunsucc : runNext r (k + 1) = s.next.map Prod.snd := by
    simp [runNext, hrun]
  have hs1 : s1.nextItemIndex = s.stepUpdate.nextItemIndex := by
    rw [hrunsucc, hnext] at hrun1
    cases hrun1
    rfl
  have hcursor : s.stepUpdate.nextItemIndex = (1 + k / h) % 2 ^ 32 := by
    rw [← hs1, hcur1, Nat.add_sub_cancel]
  have hidx : s.stepUpdate.servedIndex =
      if (1 + k / h) % 2 ^ 32 = 0 then 0
      else ((1 + k / h) % 2 ^ 32 - 1) % r.items.length := by
    have := servedIndex_eq s.stepUpdate (by rw [stepUpdate_items]; exact hsne)
    rw [stepUpdate_items, hcursor, hlen] at this
    exact this
  have hval : callValue r k = some x.value := by
    simp [callValue, hrun, hnext]
  rw [hval]
  congr 1
  have hget : (s.items.map Item.value).get? s.stepUpdate.servedIndex = some x.value := by
    rw [List.get?_map, hx]
    rfl
  rw [hmap] at hget
  rw [← hidx]
  rw [List.getD_eq_get?, hget]
  rfl

/-- Closed form for the number of advances in a fresh run: `(t - 1) / h`. -/
theorem advCount_closed (r : RoundRobin) (h : Nat)
    (hhdef : uint32OfInt r.options.RotateAmount = h) (hh : 1 ≤ h)
    (hc : r.nextItemIndex = 1) (hr : r.currentItemServesCount = 0)
    (hne : r.items.length ≠ 0) :
    ∀ t : Nat, advCount r t = (t - 1) / h := by
  intro t
  induction t with
  | zero => simp [advCount, Nat.zero_div]
  | succ t ih =>
    obtain ⟨s, hrun, hopt, _, _, _, _, hrep⟩ := run_closed_form r h hhdef hh hc hr hne t
    have hth : uint32OfInt s.options.RotateAmount = h := by rw [hopt]; exact hhdef
    unfold advCount
    rw [hrun]
    show advCount r t +
        (if s.currentItemServesCount ≥ uint32OfInt s.options.RotateAmount then 1 else 0)
      = (t + 1 - 1) / h
    rw [ih, hth, hrep, Nat.add_sub_cancel]
    by_cases ht0 : t = 0
    · subst ht0
      rw [if_pos rfl, if_neg (by omega)]
      norm_num
    · rw [if_neg ht0]
      have ht1 : 1 ≤ t := by omega
      by_cases hdvd : t % h = 0
      · rw [if_pos ((rotate_condition t h hh ht1).mpr hdvd),
          div_succ_split t h hh ht1, if_pos hdvd]
      · rw [if_neg (fun hge => hdvd ((rotate_condition t h hh ht1).mp hge)),
          div_succ_split t h hh ht1, if_neg hdvd]

/-! ### Counting serves in a block of calls -/

/-- Within one period `[0, h * n)`, the positions whose `(k / h) % n` equals
`i` are exactly the `h` positions `[i * h, i * h + h)`. -/
theorem filter_div_mod_range (h n i : Nat) (hh : 1 ≤ h) (hi : i < n) :
    ((Finset.Ico 0 (h * n)).filter (fun k => k / h % n = i)).card = h := by
  have hset : (Finset.Ico 0 (h * n)).filter (fun k => k / h % n = i)
      = Finset.Ico (i * h) (i * h + h) := by
    ext k
    simp only [Finset.mem_filter, Finset.mem_Ico, Nat.zero_le, true_and]
    constructor
    · rintro ⟨hk, hmod⟩
      have hdivlt : k / h < n :=
        Nat.div_lt_iff_lt_mul (by omega) |>.mpr (by rw [Nat.mul_comm]; exact hk)
      rw [Nat.mod_eq_of_lt hdivlt] at hmod
      have h1 := Nat.div_add_mod k h
      rw [hmod] at h1
      have h1b : i * h + k % h = k := by rw [Nat.mul_comm]; exact h1
      have h2 : k % h < h := Nat.mod_lt k (by omega)
      omega
    · intro hk
      have hdiv : k / h = i := by
        have hcomm : i * h = h * i := Nat.mul_comm i h
        have hk2 : k = (k - i * h) + h * i := by omega
        rw [hk2, Nat.add_mul_div_left _ _ (show 0 < h by omega),
          Nat.div_eq_of_lt (by omega)]
        omega
      have hklt : k < h * n := by
        have hmul : (i + 1) * h ≤ n * h := Nat.mul_le_mul_right _ hi
        have hexp : (i + 1) * h = i * h + h := by ring
        have hcomm : n * h = h * n := Nat.mul_comm n h
        omega
      exact ⟨hklt, by rw [hdiv, Nat.mod_eq_of_lt hi]⟩
  rw [hset, Nat.card_Ico]
  omega

/-- The count of positions `k` with `(k / h) % n = i` is the same in every
window of length `h * n`, by periodicity. -/
theorem filter_div_mod_shift (h n i : Nat) (hh : 1 ≤ h) (hn : 1 ≤ n) (s : Nat) :
    ((Finset.Ico s (s + h * n)).filter (fun k => k / h % n = i)).card
      = ((Finset.Ico 0 (h * n)).filter (fun k => k / h % n = i)).card := by
  induction s with
  | zero => rw [Nat.zero_add]
  | succ s ih =>
    have hdiv : (s + h * n) / h = s / h + n :=
      Nat.add_mul_div_left s n (show 0 < h by omega)
    have hper : (s + h * n) / h % n = s / h % n := by rw [hdiv, Nat.add_mod_right]
    have hcard : ∀ a b : Nat, ((Finset.Ico a b).filter (fun k => k / h % n = i)).card
        = ∑ k ∈ Finset.Ico a b, (if k / h % n = i then 1 else 0) := fun a b =>
      Finset.card_filter _ _
    rw [hcard, hcard]
    rw [hcard, hcard] at ih
    have hnP : 1 ≤ h * n := Nat.mul_pos hh hn
    have htop : ∑ k ∈ Finset.Ico (s + 1) (s + 1 + h * n), (if k / h % n = i then 1 else 0)
        = (∑ k ∈ Finset.Ico (s + 1) (s + h * n), (if k / h % n = i then 1 else 0))
          + (if (s + h * n) / h % n = i then 1 else 0) := by
      rw [show s + 1 + h * n = (s + h * n) + 1 by omega]
      exact Finset.sum_Ico_succ_top (by omega) _
    have hbot : ∑ k ∈ Finset.Ico s (s + h * n), (if k / h % n = i then 1 else 0)
        = (if s / h % n = i then 1 else 0)
          + ∑ k ∈ Finset.Ico (s + 1) (s + h * n), (if k / h % n = i then 1 else 0) :=
      Finset.sum_eq_sum_Ico_succ_bot (by omega) _
    rw [htop, hper, ← ih, hbot]
    omega

/-- Every window of `h * n` consecutive positions contains exactly `h`
positions with `(k / h) % n = i`. -/
theorem filter_div_mod_card (h n i s : Nat) (hh : 1 ≤ h) (hi : i < n) :
    ((Finset.Ico s (s + h * n)).filter (fun k => k / h % n = i)).card = h := by
  rw [filter_div_mod_shift h n i hh (by omega) s, filter_div_mod_range h n i hh hi]

/-! ### The registry: Add, construction, coherence -/

theorem addOne_spec (r : RoundRobin) (v : String) (hcoh : coherent r) :
    (r.addOne v).items.map Item.value = dedupStep (r.items.map Item.value) v ∧
    coherent (r.addOne v) ∧
    (∀ it ∈ (r.addOne v).items, it ∈ r.items ∨ it.statistics.servesCount = 0) ∧
    (r.addOne v).nextItemIndex = r.nextItemIndex ∧
    (r.addOne v).currentItemServesCount = r.currentItemServesCount ∧
    (r.addOne v).options = r.options := by
  unfold RoundRobin.addOne dedupStep
  by_cases hm : v ∈ r.itemsMapKeys
  · rw [if_pos hm, if_pos ((hcoh v).mp hm)]
    exact ⟨rfl, hcoh, fun it hit => Or.inl hit, rfl, rfl, rfl⟩
  · rw [if_neg hm, if_neg (fun hv => hm ((hcoh v).mpr hv))]
    refine ⟨by simp, ?_, ?_, rfl, rfl, rfl⟩
    · intro x
      simp only [List.mem_append, List.mem_singleton, List.map_append, List.map_cons,
        List.map_nil]
      rw [hcoh x]
    · intro it hit
      rcases List.mem_append.mp hit with h1 | h2
      · exact Or.inl h1
      · right
        rw [List.mem_singleton] at h2
        rw [h2]

theorem add_spec (values : List String) : ∀ (r : RoundRobin), coherent r →
    (r.add values).items.map Item.value = values.foldl dedupStep (r.items.map Item.value) ∧
    coherent (r.add values) ∧
    (∀ it ∈ (r.add values).items, it ∈ r.items ∨ it.statistics.servesCount = 0) ∧
    (r.add values).nextItemIndex = r.nextItemIndex ∧
    (r.add values).currentItemServesCount = r.currentItemServesCount ∧
    (r.add values).options = r.options := by
  induction values with
  | nil =>
    intro r hcoh
    exact ⟨rfl, hcoh, fun it hit => Or.inl hit, rfl, rfl, rfl⟩
  | cons v vs ih =>
    intro r hcoh
    obtain ⟨h1, h2, h3, h4, h5, h6⟩ := addOne_spec r v hcoh
    obtain ⟨g1, g2, g3, g4, g5, g6⟩ := ih (r.addOne v) h2
    have hsplit : r.add (v :: vs) = (r.addOne v).add vs := rfl
    rw [hsplit]
    refine ⟨?_, g2, ?_, ?_, ?_, ?_⟩
    · rw [g1, h1]
      rfl
    · intro it hit
      rcases g3 it hit with hin | hz
      · rcases h3 it hin with hin2 | hz2
        · exact Or.inl hin2
        · exact Or.inr hz2
      · exact Or.inr hz
    · rw [g4, h4]
    · rw [g5, h5]
    · rw [g6, h6]

theorem foldl_dedupStep_nodup (values : List String) : ∀ acc : List String,
    acc.Nodup → (values.foldl dedupStep acc).Nodup := by
  induction values with
  | nil => intro acc h; exact h
  | cons v vs ih =>
    intro acc h
    apply ih
    unfold dedupStep
    by_cases hm : v ∈ acc
    · rw [if_pos hm]
      exact h
    · rw [if_neg hm, List.nodup_append]
      refine ⟨h, List.nodup_singleton v, ?_⟩
      intro a ha hb
      rw [List.mem_singleton] at hb
      rw [hb] at ha
      exact hm ha

theorem foldl_dedupStep_length (values : List String) : ∀ acc : List String,
    acc.length ≤ (values.foldl dedupStep acc).length := by
  induction values with
  | nil => intro acc; exact Nat.le_refl _
  | cons v vs ih =>
    intro acc
    refine Nat.le_trans ?_ (ih (dedupStep acc v))
    unfold dedupStep
    by_cases hm : v ∈ acc
    · rw [if_pos hm]
    · rw [if_neg hm]
      simp

/-- All the facts about a successfully constructed instance. -/
theorem newWithOptions_ok (options : Options) (values : List String) (r : RoundRobin)
    (hok : NewWithOptions options values = Except.ok r) :
    r.items.map Item.value = firstSeenDedup values ∧
    (∀ it ∈ r.items, it.statistics.servesCount = 0) ∧
    coherent r ∧
    (r.items.map Item.value).Nodup ∧
    r.nextItemIndex = 1 ∧
    r.currentItemServesCount = 0 ∧
    r.options = options ∧
    values ≠ [] ∧
    r.items.length ≠ 0 := by
  unfold NewWithOptions at hok
  by_cases hlen : values.length = 0
  · rw [if_pos hlen] at hok
    exact absurd hok (by simp)
  · rw [if_neg hlen] at hok
    have hcoh0 : coherent
        { items := [], itemsMapKeys := [], nextItemIndex := 0,
          currentItemServesCount := 0, options := options } := by
      intro x
      simp
    obtain ⟨h1, h2, h3, h4, h5, h6⟩ := add_spec values _ hcoh0
    cases hok
    refine ⟨h1, ?_, ?_, ?_, rfl, h5, h6, ?_, ?_⟩
    · intro it hit
      rcases h3 it hit with hin | hz
      · exact absurd hin (List.not_mem_nil it)
      · exact hz
    · exact fun x => h2 x
    · rw [h1]
      exact foldl_dedupStep_nodup values [] List.nodup_nil
    · exact fun hns => hlen (by rw [hns]; rfl)
    · intro h0
      obtain ⟨v, vs, hvs⟩ : ∃ v vs, values = v :: vs := by
        cases values with
        | nil => exact absurd rfl hlen
        | cons v vs => exact ⟨v, vs, rfl⟩
      have hle := foldl_dedupStep_length vs [v]
      have h0c : (RoundRobin.add
          { items := [], itemsMapKeys := [], nextItemIndex := 0,
            currentItemServesCount := 0, options := options } values).items.length = 0 := h0
      have hclean : (RoundRobin.add
          { items := [], itemsMapKeys := [], nextItemIndex := 0,
            currentItemServesCount := 0, options := options } values).items.map Item.value
          = firstSeenDedup values := h1
      have hlenm := congrArg List.length hclean
      rw [List.length_map, h0c] at hlenm
      have hfs : firstSeenDedup values = vs.foldl dedupStep [v] := by
        rw [hvs]
        simp [firstSeenDedup, dedupStep]
      rw [hfs] at hlenm
      simp only [List.length_singleton] at hle
      omega

/-- Invariant of all states reachable by construction plus `Add` calls. -/
theorem reachable_inv (r : RoundRobin) (hr : ReachableNA r) :
    coherent r ∧ (r.items.map Item.value).Nodup := by
  induction hr with
  | ofNew options values r h =>
    obtain ⟨_, _, hcoh, hnd, _⟩ := newWithOptions_ok options values r h
    exact ⟨hcoh, hnd⟩
  | ofAdd r values _ ih =>
    obtain ⟨hcoh, hnd⟩ := ih
    obtain ⟨h1, h2, _⟩ := add_spec values r hcoh
    refine ⟨h2, ?_⟩
    rw [h1]
    exact foldl_dedupStep_nodup values _ hnd

/-! ### Serve-count statistics along a run -/

theorem sum_map_set_int (f : Item → Int) (d : Item) : ∀ (l : List Item) (i : Nat) (x : Item),
    i < l.length →
    ((l.set i x).map f).sum = (l.map f).sum + f x - f (l.getD i d) := by
  intro l
  induction l with
  | nil =>
    intro i x hi
    simp at hi
  | cons hd tl ih =>
    intro i x hi
    cases i with
    | zero =>
      simp [List.set, List.getD]
      ring
    | succ n =>
      have hn : n < tl.length := by simpa using hi
      have htl := ih n x hn
      simp only [List.set, List.map_cons, List.sum_cons, List.getD_cons_succ]
      rw [htl]
      ring

theorem getD_of_get? (l : List Item) (i : Nat) (x d : Item) (hx : l.get? i = some x) :
    l.getD i d = x := by
  rw [List.getD_eq_get?, hx]
  rfl

/-- Along a sequential run that starts with all-zero statistics, as long as
the total number of calls stays below `2 ^ 31`, no `int32` serve counter
wraps: the counts stay in `[0, k]` and their sum is exactly the number of
calls. -/
theorem run_sum (r : RoundRobin) (hne : r.items.length ≠ 0)
    (hzero : ∀ it ∈ r.items, it.statistics.servesCount = 0) :
    ∀ k : Nat, k ≤ 2 ^ 31 - 1 →
      ∃ s, runNext r k = some s ∧ s.items.length = r.items.length ∧
        ((s.items.map fun it => it.statistics.servesCount).sum = (k : Int)) ∧
        (∀ it ∈ s.items, 0 ≤ it.statistics.servesCount ∧ it.statistics.servesCount ≤ (k : Int)) := by
  intro k
  induction k with
  | zero =>
    intro _
    refine ⟨r, rfl, rfl, ?_, ?_⟩
    · rw [List.sum_eq_zero]
      · norm_num
      · intro x hx
        obtain ⟨it, hit, rfl⟩ := List.mem_map.mp hx
        exact hzero it hit
    · intro it hit
      rw [hzero it hit]
      norm_num
  | succ k ih =>
    intro hk
    obtain ⟨s, hrun, hlen, hsum, hbd⟩ := ih (by omega)
    have hsne : s.items.length ≠ 0 := by rw [hlen]; exact hne
    obtain ⟨x, hx, hnext⟩ := next_eq s hsne
    have hxmem : x ∈ s.items := List.get?_mem hx
    obtain ⟨hx0, hxk⟩ := hbd x hxmem
    have hkz : (k : Int) ≤ 2 ^ 31 - 2 := by omega
    have hinc : (x.statistics.incrementServesCount 1).servesCount
        = x.statistics.servesCount + 1 := by
      unfold Statistics.incrementServesCount
      exact wrap32_eq_self _ (by omega) (by omega)
    have hidx : s.stepUpdate.servedIndex < s.items.length := by
      have := servedIndex_lt s.stepUpdate (by rw [stepUpdate_items]; exact hsne)
      rwa [stepUpdate_items] at this
    refine ⟨{ s.stepUpdate with
        items := s.items.set s.stepUpdate.servedIndex
          { x with statistics := x.statistics.incrementServesCount 1 } }, ?_, ?_, ?_, ?_⟩
    · simp [runNext, hrun, hnext]
    · rw [show (({ s.stepUpdate with
            items := s.items.set s.stepUpdate.servedIndex
              { x with statistics := x.statistics.incrementServesCount 1 } } :
          RoundRobin).items)
        = s.items.set s.stepUpdate.servedIndex
            { x with statistics := x.statistics.incrementServesCount 1 } from rfl]
      rw [List.length_set]
      exact hlen
    · rw [show (({ s.stepUpdate with
            items := s.items.set s.stepUpdate.servedIndex
              { x with statistics := x.statistics.incrementServesCount 1 } } :
          RoundRobin).items)
        = s.items.set s.stepUpdate.servedIndex
            { x with statistics := x.statistics.incrementServesCount 1 } from rfl]
      rw [sum_map_set_int _ x s.items _ _ hidx,
        getD_of_get? s.items _ x x hx, hsum]
      show (k : Int) + (x.statistics.incrementServesCount 1).servesCount
          - x.statistics.servesCount = ((k + 1 : Nat) : Int)
      rw [hinc]
      push_cast
      ring
    · intro it hit
      rw [show (({ s.stepUpdate with
            items := s.items.set s.stepUpdate.servedIndex
              { x with statistics := x.statistics.incrementServesCount 1 } } :
          RoundRobin).items)
        = s.items.set s.stepUpdate.servedIndex
            { x with statistics := x.statistics.incrementServesCount 1 } from rfl] at hit
      rcases List.mem_or_eq_of_mem_set hit with hmem | heq
      · obtain ⟨hb0, hbk⟩ := hbd it hmem
        constructor
        · exact hb0
        · push_cast
          omega
      · rw [heq]
        show 0 ≤ (x.statistics.incrementServesCount 1).servesCount
          ∧ (x.statistics.incrementServesCount 1).servesCount ≤ ((k + 1 : Nat) : Int)
        rw [hinc]
        push_cast
        omega

/-- Closed form for the single serve counter of a one-item registry: after
`t` calls it holds `t` wrapped into the `int32` range. -/
theorem run_single_closed (r : RoundRobin) (v : String)
    (hitems : r.items = [{ value := v, statistics := { servesCount := 0 } }]) :
    ∀ t : Nat, ∃ s, runNext r t = some s ∧
      s.items = [{ value := v, statistics := { servesCount := ((t : Int) + 2 ^ 31) % 2 ^ 32 - 2 ^ 31 } }] := by
  intro t
  induction t with
  | zero =>
    refine ⟨r, rfl, ?_⟩
    rw [hitems]
    norm_num
  | succ t ih =>
    obtain ⟨s, hrun, hits⟩ := ih
    have hsne : s.items.length ≠ 0 := by rw [hits]; simp
    obtain ⟨x, hx, hnext⟩ := next_eq s hsne
    have hidx : s.stepUpdate.servedIndex < s.items.length := by
      have := servedIndex_lt s.stepUpdate (by rw [stepUpdate_items]; exact hsne)
      rwa [stepUpdate_items] at this
    have hidx0 : s.stepUpdate.servedIndex = 0 := by
      rw [hits] at hidx
      simpa using hidx
    rw [hidx0, hits] at hx
    have hxval : x = { value := v, statistics := { servesCount := ((t : Int) + 2 ^ 31) % 2 ^ 32 - 2 ^ 31 } } := by
      simpa using hx.symm
    refine ⟨{ s.stepUpdate with
        items := s.items.set s.stepUpdate.servedIndex
          { x with statistics := x.statistics.incrementServesCount 1 } },
      by simp [runNext, hrun, hnext], ?_⟩
    rw [show (({ s.stepUpdate with
          items := s.items.set s.stepUpdate.servedIndex
            { x with statistics := x.statistics.incrementServesCount 1 } } :
        RoundRobin).items)
      = s.items.set s.stepUpdate.servedIndex
          { x with statistics := x.statistics.incrementServesCount 1 } from rfl]
    have hcast : ((t + 1 : Nat) : Int) = (t : Int) + 1 := by push_cast; ring
    have hz : wrap32 ((((t : Int) + 2 ^ 31) % 2 ^ 32 - 2 ^ 31) + 1)
        = (((t + 1 : Nat) : Int) + 2 ^ 31) % 2 ^ 32 - 2 ^ 31 := by
      unfold wrap32
      rw [hcast]
      omega
    rw [hidx0, hits, hxval]
    simp only [List.set, Statistics.incrementServesCount]
    rw [hz]

/-! ### Claim theorems -/

/-- Claim C3: `New` and `NewWithOptions` fail with `ErrNoItems` if and only
if the supplied item list is empty (in which case no instance is returned,
the `Except` being an error); with at least one item they succeed and
`Items()` on the returned instance yields exactly the supplied items,
deduplicated in first-seen order, each with a zero serve count. -/
theorem c3_construction :
    ∀ (options : Options) (values : List String),
      (NewWithOptions options values = Except.error RRError.errNoItems ↔ values = []) ∧
      (New values = Except.error RRError.errNoItems ↔ values = []) ∧
      (∀ r : RoundRobin, NewWithOptions options values = Except.ok r →
        r.Items.map Item.value = firstSeenDedup values ∧
        ∀ it ∈ r.Items, it.statistics.servesCount = 0) := by
  have herr : ∀ (o : Options) (values : List String),
      NewWithOptions o values = Except.error RRError.errNoItems ↔ values = [] := by
    intro o values
    unfold NewWithOptions
    by_cases hlen : values.length = 0
    · rw [if_pos hlen]
      exact iff_of_true rfl (List.length_eq_zero.mp hlen)
    · rw [if_neg hlen]
      exact iff_of_false (by simp) (fun hv => hlen (by rw [hv]; rfl))
  intro options values
  refine ⟨herr options values, herr DefaultOptions values, ?_⟩
  intro r hok
  obtain ⟨h1, h2, _⟩ := newWithOptions_ok options values r hok
  exact ⟨h1, h2⟩

/-- Claim C3 witness: a concrete successful construction with a duplicated
value, whose registry is the two deduplicated items with zero counts. -/
theorem c3_construction_witness :
    sampleAB.Items.map Item.value = firstSeenDedup ["a", "a", "b"] ∧
    ∀ it ∈ sampleAB.Items, it.statistics.servesCount = 0 :=
  (c3_construction { RotateAmount := 1 } ["a", "a", "b"]).2.2 sampleAB (by rfl)

/-- Claim C9: a hold amount (`RotateAmount`) of `0` or negative is not
validated at construction: for every non-empty item list and every
`RotateAmount ≤ 0`, `NewWithOptions` succeeds and returns an instance. -/
theorem c9_no_hold_validation :
    ∀ (options : Options) (values : List String),
      values ≠ [] → options.RotateAmount ≤ 0 →
      ∃ r : RoundRobin, NewWithOptions options values = Except.ok r := by
  intro options values hne _
  unfold NewWithOptions
  rw [if_neg (fun h0 => hne (List.length_eq_zero.mp h0))]
  exact ⟨_, rfl⟩

/-- Claim C9 witness: construction succeeds with `RotateAmount = -1`. -/
theorem c9_no_hold_validation_witness :
    ∃ r : RoundRobin,
      NewWithOptions { RotateAmount := -1 } ["a", "b"] = Except.ok r :=
  c9_no_hold_validation { RotateAmount := -1 } ["a", "b"] (by decide) (by decide)

/-- Claim C6: `Next` is total on every non-empty-registry state: it never
fails (no panic) and the index actually used to read the items sequence lies
in `[0, registryLength)`; moreover, whenever the Go-computed raw index falls
outside `[0, registryLength)`, the call serves index `0` instead of
failing. -/
theorem c6_next_total_safety :
    (∀ s : RoundRobin, s.items ≠ [] →
      ∃ (x : Item) (s1 : RoundRobin) (i : Nat),
        s.next = some (x, s1) ∧ i < s.items.length ∧
        s1.items = s.items.set i x ∧
        x.value = (s.items.map Item.value).getD i "") ∧
    (∀ r1 : RoundRobin, r1.items ≠ [] →
      (((r1.nextItemIndex : Int) - 1).tmod (r1.items.length : Int) < 0 ∨
        ((r1.nextItemIndex : Int) - 1).tmod (r1.items.length : Int)
          ≥ (r1.items.length : Int)) →
      r1.servedIndex = 0) := by
  constructor
  · intro s hne
    have hlen : s.items.length ≠ 0 := fun h0 => hne (List.length_eq_zero.mp h0)
    obtain ⟨x, hx, hnext⟩ := next_eq s hlen
    have hidx : s.stepUpdate.servedIndex < s.items.length := by
      have := servedIndex_lt s.stepUpdate (by rw [stepUpdate_items]; exact hlen)
      rwa [stepUpdate_items] at this
    refine ⟨_, _, s.stepUpdate.servedIndex, hnext, hidx, rfl, ?_⟩
    have hget : (s.items.map Item.value).get? s.stepUpdate.servedIndex = some x.value := by
      rw [List.get?_map, hx]
      rfl
    rw [List.getD_eq_get?, hget]
    rfl
  · intro r1 hne hout
    have hlen : r1.items.length ≠ 0 := fun h0 => hne (List.length_eq_zero.mp h0)
    unfold RoundRobin.servedIndex
    rcases hout with hneg | hge
    · rw [if_pos (Or.inl hneg)]
    · have hlt : ((r1.nextItemIndex : Int) - 1).tmod (r1.items.length : Int)
          < (r1.items.length : Int) :=
        Int.tmod_lt_of_pos _ (by omega)
      exact absurd hge (not_le.mpr hlt)

/-- Claim C6 witness: a concrete `Next` call on a two-item instance. -/
theorem c6_next_total_safety_witness :
    ∃ (x : Item) (s1 : RoundRobin) (i : Nat),
      sampleAB.next = some (x, s1) ∧ i < sampleAB.items.length ∧
      s1.items = sampleAB.items.set i x ∧
      x.value = (sampleAB.items.map Item.value).getD i "" :=
  c6_next_total_safety.1 sampleAB (by decide)

/-- Claim C10: `Next` never modifies the registry's contents or order: the
list of values returned by `Items()` after the call is identical to the one
before (same values, same positions, same length), the options and the map
keys are unchanged, and every slot other than the selected one is untouched;
the selected slot only gets its serve count incremented. -/
theorem c10_frame :
    ∀ s : RoundRobin, s.items ≠ [] →
      ∃ (x : Item) (s1 : RoundRobin) (i : Nat),
        s.next = some (x, s1) ∧ i < s.items.length ∧
        s1.Items.map Item.value = s.Items.map Item.value ∧
        s1.Items.length = s.Items.length ∧
        s1.options = s.options ∧
        s1.itemsMapKeys = s.itemsMapKeys ∧
        (∀ j : Nat, j ≠ i → s1.items.get? j = s.items.get? j) ∧
        (s.items.get? i).map
            (fun y => { y with statistics := y.statistics.incrementServesCount 1 })
          = s1.items.get? i := by
  intro s hne
  have hlen : s.items.length ≠ 0 := fun h0 => hne (List.length_eq_zero.mp h0)
  obtain ⟨x, hx, hnext⟩ := next_eq s hlen
  have hidx : s.stepUpdate.servedIndex < s.items.length := by
    have := servedIndex_lt s.stepUpdate (by rw [stepUpdate_items]; exact hlen)
    rwa [stepUpdate_items] at this
  refine ⟨_, _, s.stepUpdate.servedIndex, hnext, hidx, ?_, ?_, ?_, ?_, ?_, ?_⟩
  · show (s.items.set s.stepUpdate.servedIndex
        { x with statistics := x.statistics.incrementServesCount 1 }).map Item.value
      = s.items.map Item.value
    exact map_value_set s.items _ x _ hx rfl
  · show (s.items.set s.stepUpdate.servedIndex
        { x with statistics := x.statistics.incrementServesCount 1 }).length
      = s.items.length
    exact List.length_set s.items _ _
  · show s.stepUpdate.options = s.options
    exact stepUpdate_options s
  · show s.stepUpdate.itemsMapKeys = s.itemsMapKeys
    exact stepUpdate_itemsMapKeys s
  · intro j hj
    show (s.items.set s.stepUpdate.servedIndex
        { x with statistics := x.statistics.incrementServesCount 1 }).get? j
      = s.items.get? j
    exact List.get?_set_ne _ _ (fun h => hj h.symm)
  · show (s.items.get? s.stepUpdate.servedIndex).map
        (fun y => { y with statistics := y.statistics.incrementServesCount 1 })
      = (s.items.set s.stepUpdate.servedIndex
        { x with statistics := x.statistics.incrementServesCount 1 }).get? s.stepUpdate.servedIndex
    rw [hx, List.get?_set_eq, hx]
    rfl

/-- Claim C10 witness: the frame property at a concrete two-item state. -/
theorem c10_frame_witness :
    ∃ (x : Item) (s1 : RoundRobin) (i : Nat),
      sampleMid.next = some (x, s1) ∧ i < sampleMid.items.length ∧
      s1.Items.map Item.value = sampleMid.Items.map Item.value ∧
      s1.Items.length = sampleMid.Items.length ∧
      s1.options = sampleMid.options ∧
      s1.itemsMapKeys = sampleMid.itemsMapKeys ∧
      (∀ j : Nat, j ≠ i → s1.items.get? j = sampleMid.items.get? j) ∧
      (sampleMid.items.get? i).map
          (fun y => { y with statistics := y.statistics.incrementServesCount 1 })
        = s1.items.get? i :=
  c10_frame sampleMid (by decide)

/-- Claim C5: `Add` is idempotent per value and the registry keeps set
semantics: on every state reachable by construction and `Add` calls, adding
a value already present leaves the state unchanged, the stored values are
pairwise distinct, and `Add("a","a","b")` on a registry containing neither
value appends exactly the two items `"a", "b"` in first-seen order. -/
theorem c5_add_set_semantics :
    (∀ (r : RoundRobin) (v : String), ReachableNA r →
      v ∈ r.items.map Item.value → r.add [v] = r) ∧
    (∀ r : RoundRobin, ReachableNA r → (r.items.map Item.value).Nodup) ∧
    (∀ r : RoundRobin, ReachableNA r →
      "a" ∉ r.items.map Item.value → "b" ∉ r.items.map Item.value →
      (r.add ["a", "a", "b"]).items.map Item.value
        = r.items.map Item.value ++ ["a", "b"]) := by
  refine ⟨?_, ?_, ?_⟩
  · intro r v hreach hv
    obtain ⟨hcoh, _⟩ := reachable_inv r hreach
    show r.addOne v = r
    unfold RoundRobin.addOne
    rw [if_pos ((hcoh v).mpr hv)]
  · intro r hreach
    exact (reachable_inv r hreach).2
  · intro r hreach ha hb
    obtain ⟨hcoh, _⟩ := reachable_inv r hreach
    have hka : "a" ∉ r.itemsMapKeys := fun h => ha ((hcoh "a").mp h)
    have hkb : "b" ∉ r.itemsMapKeys := fun h => hb ((hcoh "b").mp h)
    show (((r.addOne "a").addOne "a").addOne "b").items.map Item.value
      = r.items.map Item.value ++ ["a", "b"]
    have h1 : r.addOne "a" = { r with
        items := r.items ++ [{ value := "a", statistics := { servesCount := 0 } }],
        itemsMapKeys := r.itemsMapKeys ++ ["a"] } := by
      unfold RoundRobin.addOne
      rw [if_neg hka]
    rw [h1]
    have h2 : ({ r with
        items := r.items ++ [{ value := "a", statistics := { servesCount := 0 } }],
        itemsMapKeys := r.itemsMapKeys ++ ["a"] } : RoundRobin).addOne "a"
        = { r with
        items := r.items ++ [{ value := "a", statistics := { servesCount := 0 } }],
        itemsMapKeys := r.itemsMapKeys ++ ["a"] } := by
      unfold RoundRobin.addOne
      rw [if_pos (by simp)]
    rw [h2]
    have h3 : ({ r with
        items := r.items ++ [{ value := "a", statistics := { servesCount := 0 } }],
        itemsMapKeys := r.itemsMapKeys ++ ["a"] } : RoundRobin).addOne "b"
        = { r with
        items := (r.items ++ [{ value := "a", statistics := { servesCount := 0 } }])
          ++ [{ value := "b", statistics := { servesCount := 0 } }],
        itemsMapKeys := (r.itemsMapKeys ++ ["a"]) ++ ["b"] } := by
      unfold RoundRobin.addOne
      rw [if_neg (by simp [hkb])]
    rw [h3]
    simp [List.map_append]

/-- Claim C5 witness: the concrete `Add("a","a","b")` on a freshly built
one-item registry seeded with `"x"`. -/
theorem c5_add_set_semantics_witness :
    (sampleX.add ["a", "a", "b"]).items.map Item.value
      = sampleX.items.map Item.value ++ ["a", "b"] :=
  c5_add_set_semantics.2.2 sampleX
    (ReachableNA.ofNew { RotateAmount := 1 } ["x"] sampleX (by rfl))
    (by decide) (by decide)

/-- Claim C2 (amended): each `Next` call on a non-empty registry updates the
state by exactly this rule: if the repeat count is at least the hold amount
(as reinterpreted by `uint32`), the repeat count is reset to `1` and the
cursor advances by `1` **modulo `2 ^ 32`** (the `uint32` wraps); otherwise
the repeat count is incremented by `1`; the served index is then
`(cursor - 1) % registryLength` on the updated cursor (truncated `Nat`
subtraction, which also covers the wrapped `cursor = 0` fallback).  With hold
amount `2` and items `["a", "b"]` the 8-call sequence is a,a,b,b,a,a,b,b. -/
theorem c2_amended :
    (∀ s : RoundRobin, s.items ≠ [] →
      ∃ (x : Item) (s1 : RoundRobin), s.next = some (x, s1) ∧
        (if s.currentItemServesCount ≥ uint32OfInt s.options.RotateAmount then
          s1.currentItemServesCount = 1 ∧
            s1.nextItemIndex = (s.nextItemIndex + 1) % 2 ^ 32
        else
          s1.currentItemServesCount = s.currentItemServesCount + 1 ∧
            s1.nextItemIndex = s.nextItemIndex) ∧
        x.value = (s.items.map Item.value).getD
          ((s1.nextItemIndex - 1) % s.items.length) "") ∧
    (NewWithOptions { RotateAmount := 2 } ["a", "b"]).map
        (fun r => (List.range 8).map (callValue r))
      = Except.ok [some "a", some "a", some "b", some "b",
          some "a", some "a", some "b", some "b"] := by
  constructor
  · intro s hne
    have hlen : s.items.length ≠ 0 := fun h0 => hne (List.length_eq_zero.mp h0)
    obtain ⟨x, hx, hnext⟩ := next_eq s hlen
    have hserved : s.stepUpdate.servedIndex
        = (s.stepUpdate.nextItemIndex - 1) % s.items.length := by
      rw [servedIndex_eq s.stepUpdate (by rw [stepUpdate_items]; exact hlen),
        stepUpdate_items]
      by_cases hc : s.stepUpdate.nextItemIndex = 0
      · rw [if_pos hc, hc]
        simp
      · rw [if_neg hc]
    have hval : x.value = (s.items.map Item.value).getD
        ((s.stepUpdate.nextItemIndex - 1) % s.items.length) "" := by
      rw [← hserved]
      have hget : (s.items.map Item.value).get? s.stepUpdate.servedIndex
          = some x.value := by
        rw [List.get?_map, hx]
        rfl
      rw [List.getD_eq_get?, hget]
      rfl
    refine ⟨_, _, hnext, ?_, ?_⟩
    · unfold RoundRobin.stepUpdate
      by_cases hadv : s.currentItemServesCount ≥ uint32OfInt s.options.RotateAmount
      · rw [if_pos hadv, if_pos hadv]
        exact ⟨rfl, rfl⟩
      · rw [if_neg hadv, if_neg hadv]
        refine ⟨?_, rfl⟩
        show (s.currentItemServesCount + 1) % 2 ^ 32 = s.currentItemServesCount + 1
        have hth : uint32OfInt s.options.RotateAmount < 2 ^ 32 :=
          uint32OfInt_lt s.options.RotateAmount
        exact Nat.mod_eq_of_lt (by omega)
    · exact hval
  · rfl

/-- Claim C2 counterexample: on the real run of `New ["a", "b"]`, call number
`2 ^ 32` (1-based) finds the repeat counter at the hold amount, so by the
claim's rule the cursor should advance by `1` — but the `uint32` wraps from
`2 ^ 32 - 1` to `0`, so the new cursor is not the old cursor plus one. -/
theorem c2_counterexample :
    New ["a", "b"] = Except.ok sampleAB ∧
    ∃ s s1 : RoundRobin,
      runNext sampleAB (2 ^ 32 - 1) = some s ∧ runNext sampleAB (2 ^ 32) = some s1 ∧
      s.currentItemServesCount ≥ uint32OfInt s.options.RotateAmount ∧
      s1.nextItemIndex ≠ s.nextItemIndex + 1 := by
  refine ⟨by rfl, ?_⟩
  obtain ⟨s, hrun, hopt, _, _, _, hcur, hrep⟩ :=
    run_closed_form sampleAB 1 (by decide) (by decide) rfl rfl (by decide) (2 ^ 32 - 1)
  obtain ⟨s1, hrun1, _, _, _, _, hcur1, _⟩ :=
    run_closed_form sampleAB 1 (by decide) (by decide) rfl rfl (by decide) (2 ^ 32)
  refine ⟨s, s1, hrun, hrun1, ?_, ?_⟩
  · rw [hrep, hopt]
    decide
  · rw [hcur1, hcur, Nat.div_one, Nat.div_one]
    omega

/-- Claim C2 witness: the per-call update rule at a concrete mid-run state,
plus nothing else: instantiates the amended theorem at `sampleMid`. -/
theorem c2_amended_witness :
    ∃ (x : Item) (s1 : RoundRobin), sampleMid.next = some (x, s1) ∧
      (if sampleMid.currentItemServesCount ≥ uint32OfInt sampleMid.options.RotateAmount then
        s1.currentItemServesCount = 1 ∧
          s1.nextItemIndex = (sampleMid.nextItemIndex + 1) % 2 ^ 32
      else
        s1.currentItemServesCount = sampleMid.currentItemServesCount + 1 ∧
          s1.nextItemIndex = sampleMid.nextItemIndex) ∧
      x.value = (sampleMid.items.map Item.value).getD
        ((s1.nextItemIndex - 1) % sampleMid.items.length) "" :=
  c2_amended.1 sampleMid (by decide)

/-- Claim C7 (amended): along every fresh run, the cursor read after `t`
calls equals `(1 + advances so far) % 2 ^ 32` — the monotone logical
position is only represented modulo the `uint32` width. -/
theorem c7_amended :
    ∀ (r : RoundRobin) (h : Nat),
      uint32OfInt r.options.RotateAmount = h → 1 ≤ h →
      r.nextItemIndex = 1 → r.currentItemServesCount = 0 → r.items ≠ [] →
      ∀ t : Nat, ∃ s : RoundRobin, runNext r t = some s ∧
        s.nextItemIndex = (1 + advCount r t) % 2 ^ 32 := by
  intro r h hhdef hh hc hr hne t
  have hlen : r.items.length ≠ 0 := fun h0 => hne (List.length_eq_zero.mp h0)
  obtain ⟨s, hrun, _, _, _, _, hcur, _⟩ := run_closed_form r h hhdef hh hc hr hlen t
  exact ⟨s, hrun, by rw [hcur, advCount_closed r h hhdef hh hc hr hlen t]⟩

/-- Claim C7 counterexample: after `2 ^ 32` calls on `New ["a", "b"]`,
exactly `2 ^ 32 - 1` advances have been performed but the stored cursor is
`0`, not `1 + (2 ^ 32 - 1)`: the `uint32` has silently wrapped. -/
theorem c7_counterexample :
    New ["a", "b"] = Except.ok sampleAB ∧
    advCount sampleAB (2 ^ 32) = 2 ^ 32 - 1 ∧
    (∃ s : RoundRobin, runNext sampleAB (2 ^ 32) = some s ∧ s.nextItemIndex = 0) ∧
    (0 : Nat) ≠ 1 + (2 ^ 32 - 1) := by
  refine ⟨by rfl, ?_, ?_, by norm_num⟩
  · rw [advCount_closed sampleAB 1 (by decide) (by decide) rfl rfl (by decide) (2 ^ 32),
      Nat.div_one]
  · obtain ⟨s, hrun, _, _, _, _, hcur, _⟩ :=
      run_closed_form sampleAB 1 (by decide) (by decide) rfl rfl (by decide) (2 ^ 32)
    refine ⟨s, hrun, ?_⟩
    rw [hcur, Nat.div_one]
    omega

/-- Claim C7 witness: the amended cursor law at a small concrete run. -/
theorem c7_amended_witness :
    ∃ s : RoundRobin, runNext sampleAB2 5 = some s ∧
      s.nextItemIndex = (1 + advCount sampleAB2 5) % 2 ^ 32 :=
  c7_amended sampleAB2 2 (by decide) (by decide) rfl rfl (by decide) 5

/-- Claim C8 (amended): `New` is definitionally `NewWithOptions` with the
default configuration, whose hold amount (`RotateAmount`) is `1`; an
instance built by `New` performs strict round-robin, advancing the cursor
(modulo `2 ^ 32`) on every `Next` call **after the first** — the very first
call serves the first item without advancing the cursor. -/
theorem c8_amended :
    (∀ values : List String, New values = NewWithOptions DefaultOptions values) ∧
    DefaultOptions.RotateAmount = 1 ∧
    (∀ (values : List String) (r : RoundRobin) (t : Nat) (s s1 : RoundRobin),
      New values = Except.ok r → 1 ≤ t →
      runNext r t = some s → runNext r (t + 1) = some s1 →
      s1.nextItemIndex = (s.nextItemIndex + 1) % 2 ^ 32) := by
  refine ⟨fun values => rfl, rfl, ?_⟩
  intro values r t s s1 hok ht hs hs1
  obtain ⟨_, _, _, _, hc, hr, hopt, _, hlen⟩ := newWithOptions_ok DefaultOptions values r hok
  have hhdef : uint32OfInt r.options.RotateAmount = 1 := by
    rw [hopt]
    decide
  obtain ⟨s', hrun', _, _, _, _, hcur', _⟩ :=
    run_closed_form r 1 hhdef (by decide) hc hr hlen t
  obtain ⟨s1', hrun1', _, _, _, _, hcur1', _⟩ :=
    run_closed_form r 1 hhdef (by decide) hc hr hlen (t + 1)
  rw [hs] at hrun'
  rw [hs1] at hrun1'
  cases hrun'
  cases hrun1'
  rw [hcur', hcur1', Nat.div_one, Nat.div_one, Nat.mod_add_mod]
  have ht1 : t - 1 + 1 = t := by omega
  have ht2 : t + 1 - 1 = t := by omega
  rw [ht2]
  congr 1
  omega

/-- Claim C8 counterexample: the very first `Next` call on a fresh `New`
instance does **not** advance the cursor — it only raises the repeat counter
to `1` — refuting "advances the cursor on every Next() call". -/
theorem c8_counterexample :
    New ["a", "b"] = Except.ok sampleAB ∧
    ∃ (x : Item) (s1 : RoundRobin),
      sampleAB.next = some (x, s1) ∧ s1.nextItemIndex = sampleAB.nextItemIndex := by
  exact ⟨rfl, _, _, rfl, rfl⟩

/-- Claim C8 witness: the second call on `New ["a", "b"]` advances the
cursor from `1` to `2`. -/
theorem c8_amended_witness :
    ∃ (s s1 : RoundRobin),
      runNext sampleAB 1 = some s ∧ runNext sampleAB 2 = some s1 ∧
      s1.nextItemIndex = (s.nextItemIndex + 1) % 2 ^ 32 := by
  refine ⟨_, _, rfl, rfl, ?_⟩
  exact c8_amended.2.2 ["a", "b"] sampleAB 1 _ _ (by rfl) (by decide) rfl rfl

/-- Claim C1 (amended): for a fresh rotator with hold amount `h ≥ 1` and
`n ≥ 1` distinct items, every block of `h * n` consecutive `Next` calls that
lies within the first `h * (2 ^ 32 - 1)` calls — i.e. before the `uint32`
cursor can wrap — serves every item exactly `h` times; in particular with
hold amount `1` and items `["item1","item2","item3"]` the first 6 calls
yield item1,item2,item3,item1,item2,item3. -/
theorem c1_amended :
    (∀ (r : RoundRobin) (h n blockStart i : Nat) (v : String),
      uint32OfInt r.options.RotateAmount = h → 1 ≤ h →
      r.nextItemIndex = 1 → r.currentItemServesCount = 0 →
      r.items.length = n → 1 ≤ n →
      (r.items.map Item.value).Nodup →
      (r.items.map Item.value).get? i = some v →
      blockStart + h * n ≤ h * (2 ^ 32 - 1) →
      ((Finset.Ico blockStart (blockStart + h * n)).filter
          (fun k => callValue r k = some v)).card = h) ∧
    (New ["item1", "item2", "item3"]).map (fun r => (List.range 6).map (callValue r))
      = Except.ok [some "item1", some "item2", some "item3",
          some "item1", some "item2", some "item3"] := by
  constructor
  · intro r h n blockStart i v hhdef hh hc hr hlen hn hnd hgv hbound
    have hlen0 : r.items.length ≠ 0 := by omega
    have hi : i < n := by
      obtain ⟨hlt, _⟩ := List.get?_eq_some.mp hgv
      rw [List.length_map, hlen] at hlt
      exact hlt
    have hcongr : ∀ k ∈ Finset.Ico blockStart (blockStart + h * n),
        (callValue r k = some v) ↔ (k / h % n = i) := by
      intro k hk
      rw [Finset.mem_Ico] at hk
      have hkb : k < h * (2 ^ 32 - 1) := by omega
      have hdivlt : k / h < 2 ^ 32 - 1 :=
        Nat.div_lt_iff_lt_mul (show 0 < h by omega) |>.mpr (by rw [Nat.mul_comm]; exact hkb)
      rw [callValue_eq r h hhdef hh hc hr hlen0 k]
      generalize hq : k / h = q at hdivlt ⊢
      have hnowrap : (1 + q) % 2 ^ 32 = 1 + q := Nat.mod_eq_of_lt (by omega)
      rw [hnowrap, if_neg (show ¬(1 + q = 0) by omega), Nat.add_sub_cancel_left, hlen]
      have hj : q % n < n := Nat.mod_lt _ (by omega)
      obtain ⟨w, hw⟩ : ∃ w, (r.items.map Item.value).get? (q % n) = some w :=
        ⟨_, List.get?_eq_get (by rw [List.length_map, hlen]; exact hj)⟩
      constructor
      · intro hsome
        injection hsome with hval
        rw [List.getD_eq_get?, hw] at hval
        have hwv : w = v := hval
        have hjget : (r.items.map Item.value).get? (q % n) = some v := by
          rw [hw, hwv]
        exact List.get?_inj (by rw [List.length_map, hlen]; exact hj) hnd
          (hjget.trans hgv.symm)
      · intro hj0
        rw [hj0, List.getD_eq_get?, hgv]
        rfl
    rw [Finset.filter_congr hcongr]
    exact filter_div_mod_card h n i blockStart hh hi
  · rfl

/-- Claim C1 counterexample: on `New ["a", "b"]` (hold amount `1`, two
items), the block of `1 * 2` consecutive calls starting after `2 ^ 32 - 1`
preceding calls — the block in which the `uint32` cursor wraps — serves
`"b"` zero times instead of exactly once. -/
theorem c1_counterexample :
    New ["a", "b"] = Except.ok sampleAB ∧
    ((Finset.Ico (2 ^ 32 - 1) (2 ^ 32 - 1 + 1 * 2)).filter
        (fun k => callValue sampleAB k = some "b")).card = 0 ∧
    (0 : Nat) ≠ 1 := by
  refine ⟨by rfl, ?_, by norm_num⟩
  have hval : ∀ k, k = 2 ^ 32 - 1 ∨ k = 2 ^ 32 → callValue sampleAB k = some "a" := by
    intro k hk
    rw [callValue_eq sampleAB 1 (by decide) (by decide) rfl rfl (by decide) k,
      Nat.div_one]
    rcases hk with hk | hk
    · subst hk
      rw [show (1 + (2 ^ 32 - 1)) % 2 ^ 32 = 0 by omega, if_pos rfl]
      rfl
    · subst hk
      rw [show (1 + 2 ^ 32) % 2 ^ 32 = 1 by omega, if_neg (by omega)]
      rfl
  rw [Finset.card_eq_zero, Finset.filter_eq_empty_iff]
  intro k hk
  rw [Finset.mem_Ico] at hk
  have hk2 : k = 2 ^ 32 - 1 ∨ k = 2 ^ 32 := by omega
  rw [hval k hk2]
  decide

/-- Claim C1 witness: block fairness on a concrete instance with hold amount
`2` and two items, over the block of calls `[3, 7)`. -/
theorem c1_amended_witness :
    ((Finset.Ico 3 (3 + 2 * 2)).filter
        (fun k => callValue sampleAB2 k = some "a")).card = 2 :=
  c1_amended.1 sampleAB2 2 2 3 0 "a" (by decide) (by decide) rfl rfl (by decide)
    (by decide) (by decide) (by decide) (by decide)

/-- Claim C4 (amended): every `Next` call increments the serve count of
exactly the selected item by `1` in wrapping `int32` arithmetic; as long as
the number of sequential calls `k` on a fresh instance stays at most
`2 ^ 31 - 1` no counter wraps and the sum of all serve counts is exactly
`k`; the item returned by the first call on a fresh instance carries serve
count `1`; and `ResetServesCount` yields count `0`. -/
theorem c4_amended :
    (∀ r : RoundRobin, r.items ≠ [] →
      (∀ it ∈ r.items, it.statistics.servesCount = 0) →
      ∀ k : Nat, k ≤ 2 ^ 31 - 1 →
        ∃ s : RoundRobin, runNext r k = some s ∧
          ((s.items.map fun it => it.statistics.servesCount).sum = (k : Int))) ∧
    (∀ (r : RoundRobin) (x : Item) (s1 : RoundRobin),
      (∀ it ∈ r.items, it.statistics.servesCount = 0) →
      r.next = some (x, s1) → x.statistics.servesCount = 1) ∧
    (∀ st : Statistics, st.resetServesCount.servesCount = 0) := by
  refine ⟨?_, ?_, fun st => rfl⟩
  · intro r hne hz k hk
    have hlen : r.items.length ≠ 0 := fun h0 => hne (List.length_eq_zero.mp h0)
    obtain ⟨s, hrun, _, hsum, _⟩ := run_sum r hlen hz k hk
    exact ⟨s, hrun, hsum⟩
  · intro r x s1 hz hnx
    have hlen : r.items.length ≠ 0 := by
      intro h0
      have hnone : r.next = none := by
        unfold RoundRobin.next
        show (if r.stepUpdate.items.length = 0 then none
          else r.stepUpdate.serveAt r.stepUpdate.servedIndex) = none
        rw [stepUpdate_items, if_pos h0]
      rw [hnone] at hnx
      exact Option.noConfusion hnx
    obtain ⟨x0, hx0, hnext⟩ := next_eq r hlen
    rw [hnx] at hnext
    have hpair := Option.some.inj hnext
    have hxeq : x = { x0 with statistics := x0.statistics.incrementServesCount 1 } :=
      congrArg Prod.fst hpair
    have hz0 : x0.statistics.servesCount = 0 := hz x0 (List.get?_mem hx0)
    rw [hxeq]
    show (x0.statistics.incrementServesCount 1).servesCount = 1
    unfold Statistics.incrementServesCount
    rw [hz0]
    decide

/-- Claim C4 counterexample: on `New ["a"]` the single item's `int32` serve
count wraps after `2 ^ 31` sequential calls: the sum of all serve counts is
then `-2 ^ 31`, not `2 ^ 31`. -/
theorem c4_counterexample :
    New ["a"] = Except.ok sampleA ∧
    (∃ s : RoundRobin, runNext sampleA (2 ^ 31) = some s ∧
      ((s.items.map fun it => it.statistics.servesCount).sum = -(2 ^ 31))) ∧
    (-(2 ^ 31) : Int) ≠ ((2 ^ 31 : Nat) : Int) := by
  refine ⟨by rfl, ?_, by norm_num⟩
  obtain ⟨s, hrun, hits⟩ := run_single_closed sampleA "a" rfl (2 ^ 31)
  refine ⟨s, hrun, ?_⟩
  rw [hits]
  simp only [List.map_cons, List.map_nil, List.sum_cons, List.sum_nil]
  push_cast

/-- Claim C4 witness: after 3 calls on a fresh two-item instance the serve
counts sum to 3. -/
theorem c4_amended_witness :
    ∃ s : RoundRobin, runNext sampleAB 3 = some s ∧
      ((s.items.map fun it => it.statistics.servesCount).sum = ((3 : Nat) : Int)) :=
  c4_amended.1 sampleAB (by decide) (by decide) 3 (by decide)

end RoundRobinModel
